import Mathlib

/-!
Shallow embedding of the SU2 output-field registry
(`SU2_CFD/include/output/fields/output_fields.hpp`): the field records,
the keyed collection query engine, the iteration-value collection with
its two-phase custom-field evaluation step, and the bulk-value
collection.  Machine doubles (`su2double`) carry no arithmetic in the
verified fragment, so values are embedded as integers; the expression
engine and the ordered-map scan primitive live outside the fragment and
are modelled from the specification where noted.
-/

/-- Embedding of `enum class ScreenOutputFormat` (output_fields.hpp, lines 9-14). -/
inductive ScreenOutputFormat where
  | INTEGER
  | FIXED
  | SCIENTIFIC
  | PERCENT
deriving DecidableEq, Repr

/-- Embedding of `enum class FieldType` (output_fields.hpp, lines 17-24). -/
inductive FieldType where
  | RESIDUAL
  | AUTO_RESIDUAL
  | COEFFICIENT
  | AUTO_COEFFICIENT
  | CUSTOM
  | DEFAULT
deriving DecidableEq, Repr

/-- Field values: `su2double` holds numeric scalars only copied and stored by
this fragment, embedded as integers. -/
abbrev su2double := Int

/-- The evaluation environment (`TokenMap` / `GlobalScope`): a mutable
string-to-value dictionary, embedded as an association list with
first-match lookup and overwrite-or-append update, mirroring the unique-key
map the expression engine exposes. -/
abbrev TokenMap := List (String × su2double)

/-- Lookup of a name in the evaluation environment (`scope[name]` read). -/
def getToken : TokenMap → String → Option su2double
  | [], _ => none
  | (k', v') :: rest, k => if k' = k then some v' else getToken rest k

/-- Write of a name into the evaluation environment (`scope[name] = v`):
overwrites the entry if the key is present, otherwise appends a new entry. -/
def setToken : TokenMap → String → su2double → TokenMap
  | [], k, v => [(k, v)]
  | (k', v') :: rest, k, v =>
      if k' = k then (k, v) :: rest else (k', v') :: setToken rest k v

/-- Modelled from the spec: the expression engine (`CExpressionParser`,
`Common/include/toolboxes/CExpressionParser.hpp`, not part of this fragment).
Per spec section 6, the engine compiles a formula once into an executable
program; executing the program against a supplied name-keyed environment and
then reading the named result is embedded as one function `prog` from the
environment to the result value. -/
structure CExpressionParser where
  prog : TokenMap → su2double

/-- Embedding of `HistoryOutputField` together with its `COutputField` base
(output_fields.hpp, lines 27-72): name, group, description, category tag,
mutable value, screen format, and the owned expression program. -/
structure HistoryOutputField where
  fieldName : String
  outputGroup : String
  description : String
  fieldType : FieldType
  value : su2double
  screenFormat : ScreenOutputFormat
  expParser : CExpressionParser

/-- Embedding of `VolumeOutputField` with its `COutputField` base
(output_fields.hpp, lines 78-90): metadata plus the buffer offset. -/
structure VolumeOutputField where
  fieldName : String
  outputGroup : String
  description : String
  fieldType : FieldType
  offset : Int

/-- Embedding of the initializing constructor of `VolumeOutputField`
(output_fields.hpp, lines 87-89): the caller supplies name, offset, group and
description; the category tag is hard-coded to `FieldType::DEFAULT`. -/
def mkVolumeOutputField (fieldName_ : String) (offset_ : Int)
    (volumeOutputGroup_ : String) (description_ : String) : VolumeOutputField :=
  { fieldName := fieldName_
    outputGroup := volumeOutputGroup_
    description := description_
    fieldType := FieldType.DEFAULT
    offset := offset_ }

/-- Modelled from the spec: `CIndexedMap::GetReferences`
(`Common/include/toolboxes/CIndexedMap.hpp`, not part of this fragment), the
generic scan behind all three query families.  Per spec sections 4.2, 8 and 9
it filters the candidate sequence by a match predicate, preserving the
relative order of the candidate sequence (not the order of the requested
keys); a candidate matching several requested keys appears once per match. -/
def GetReferencesList {κ α : Type} (keyList : List κ) (pred : κ → α → Bool) :
    List α → List α
  | [] => []
  | c :: rest =>
      ((keyList.filter fun k => pred k c).map fun _ => c) ++
        GetReferencesList keyList pred rest

/-- Modelled from the spec: the `notFound` output of
`CIndexedMap::GetReferences` collects the requested keys for which no
candidate matched (spec sections 4.2 and 7). -/
def GetReferencesNotFound {κ α : Type} (keyList : List κ) (pred : κ → α → Bool)
    (refVector : List α) : List κ :=
  keyList.filter fun k => !(refVector.any fun c => pred k c)

/-- Modelled from the spec: `CIndexedMap::GetReferences`, packaging the
matched references and the not-found keys. -/
def GetReferences {κ α : Type} (keyList : List κ) (refVector : List α)
    (pred : κ → α → Bool) : List α × List κ :=
  (GetReferencesList keyList pred refVector,
   GetReferencesNotFound keyList pred refVector)

/-- The match predicate of `COutFieldCollection::GetFieldsByKey`
(output_fields.hpp, lines 128-130 and 155-157): a candidate matches a
requested key if its map key — the field's name, which is the unique map key
per spec section 3 — equals the key, or group search is enabled and its
group equals the key. -/
def findFieldWithName (searchGroup : Bool) (key : String)
    (f : HistoryOutputField) : Bool :=
  key == f.fieldName || (searchGroup && key == f.outputGroup)

/-- Embedding of the static `COutFieldCollection::GetFieldsByKey`
(output_fields.hpp, lines 126-132); the instance form (lines 154-159) is this
applied to the collection's insertion vector. -/
def GetFieldsByKey (fieldKey : List String) (refVector : List HistoryOutputField)
    (searchGroup : Bool) : List HistoryOutputField × List String :=
  GetReferences fieldKey refVector (findFieldWithName searchGroup)

/-- Embedding of `COutFieldCollection::GetFieldsByGroup`
(output_fields.hpp, lines 179-198): matches purely on group-name equality. -/
def GetFieldsByGroup (groupList : List String)
    (refVector : List HistoryOutputField) :
    List HistoryOutputField × List String :=
  GetReferences groupList refVector (fun group f => group == f.outputGroup)

/-- The match predicate `findFieldWithType` (output_fields.hpp, lines
109-111). -/
def findFieldWithType (type : FieldType) (f : HistoryOutputField) : Bool :=
  f.fieldType == type

/-- Embedding of `COutFieldCollection::GetFieldsByType`
(output_fields.hpp, lines 216-229): the not-found list is discarded into a
dummy. -/
def GetFieldsByType (type : List FieldType)
    (refVector : List HistoryOutputField) : List HistoryOutputField :=
  (GetReferences type refVector findFieldWithType).1

/-- Embedding of `HistoryOutFieldCollection` (output_fields.hpp, lines
234-273): the insertion-ordered field storage (the `CIndexedMap` map and its
insertion vector collapse to one list, the field's name being the map key)
and the member evaluation scope `outFieldScope`. -/
structure HistoryOutFieldCollection where
  insertionVector : List HistoryOutputField
  outFieldScope : TokenMap

/-- One iteration of the publish loop of
`HistoryOutFieldCollection::UpdateTokens` (output_fields.hpp, lines 242-246):
a non-Custom field writes its current value into the scope under its name; a
Custom field is skipped. -/
def publishStep (env : TokenMap) (f : HistoryOutputField) : TokenMap :=
  if f.fieldType ≠ FieldType.CUSTOM then setToken env f.fieldName f.value
  else env

/-- The publish phase of `HistoryOutFieldCollection::UpdateTokens`
(output_fields.hpp, lines 242-246): walk the insertion vector and write each
non-Custom field's current value into the scope under the field's name. -/
def UpdateTokensScope (c : HistoryOutFieldCollection) : TokenMap :=
  c.insertionVector.foldl publishStep c.outFieldScope

/-- Embedding of `HistoryOutFieldCollection::UpdateTokens`
(output_fields.hpp, lines 237-253): collect the Custom fields; if none, do
nothing; otherwise publish every non-Custom field's value into the scope,
then execute each Custom field's expression program against the published
scope and overwrite that field's value with the result. -/
def UpdateTokens (c : HistoryOutFieldCollection) : HistoryOutFieldCollection :=
  if (GetFieldsByType [FieldType.CUSTOM] c.insertionVector).isEmpty then c
  else
    { insertionVector :=
        c.insertionVector.map fun f =>
          if f.fieldType = FieldType.CUSTOM then
            { f with value := f.expParser.prog (UpdateTokensScope c) }
          else f
      outFieldScope := UpdateTokensScope c }

/-- Embedding of `HistoryOutFieldCollection::SetValueByKey`
(output_fields.hpp, lines 260-262): `map.find(key)->second.value = value`
updates the entry stored under `key`; the map holds at most one entry per
key, embedded as an update of the first (hence, under unique names, the only)
field named `key`.  An unregistered key is a caller error (undefined lookup);
the embedding leaves the collection unchanged there. -/
def setValueFirst : List HistoryOutputField → String → su2double →
    List HistoryOutputField
  | [], _, _ => []
  | f :: rest, key, v =>
      if f.fieldName = key then { f with value := v } :: rest
      else f :: setValueFirst rest key v

/-- Embedding of `HistoryOutFieldCollection::SetValueByKey` at the collection
level. -/
def SetValueByKey (c : HistoryOutFieldCollection) (key : String)
    (v : su2double) : HistoryOutFieldCollection :=
  { c with insertionVector := setValueFirst c.insertionVector key v }

/-- Embedding of `HistoryOutFieldCollection::SetValueByIndex`
(output_fields.hpp, lines 269-271): `insertionVector[i]->second.value =
value` overwrites the value of the field at insertion position `i`.  An
out-of-range index is a caller error; the embedding leaves the collection
unchanged there. -/
def SetValueByIndex (c : HistoryOutFieldCollection) (i : Nat)
    (v : su2double) : HistoryOutFieldCollection :=
  match c.insertionVector.get? i with
  | some f =>
      { c with insertionVector := c.insertionVector.set i { f with value := v } }
  | none => c

/-- Write through the reference returned by `COutFieldCollection::GetScope`
(output_fields.hpp, line 116): a caller-side `GetScope()[key] = v` between
evaluation cycles. -/
def SetScopeEntry (c : HistoryOutFieldCollection) (key : String)
    (v : su2double) : HistoryOutFieldCollection :=
  { c with outFieldScope := setToken c.outFieldScope key v }

/-- Embedding of `VolumeOutFieldCollection` (output_fields.hpp, lines
275-283). -/
structure VolumeOutFieldCollection where
  insertionVector : List VolumeOutputField
  outFieldScope : TokenMap

/-- Embedding of `VolumeOutFieldCollection::UpdateTokens`
(output_fields.hpp, lines 279-281): the body is empty. -/
def VolumeOutFieldCollection.UpdateTokens (c : VolumeOutFieldCollection) :
    VolumeOutFieldCollection :=
  c

/-- State-passing form of the instance query
`COutFieldCollection::GetFieldsByKey` (output_fields.hpp, lines 154-159, a
const member): the outcome is the matched references with the not-found keys,
paired with the collection state the call leaves behind — the body performs
no member write, so that state is the argument itself. -/
def RunGetFieldsByKey (c : HistoryOutFieldCollection) (fieldKey : List String)
    (searchGroup : Bool) :
    (List HistoryOutputField × List String) × HistoryOutFieldCollection :=
  (GetFieldsByKey fieldKey c.insertionVector searchGroup, c)

/-- State-passing form of the instance query
`COutFieldCollection::GetFieldsByGroup` (output_fields.hpp, lines 193-198):
the body only reads the insertion vector. -/
def RunGetFieldsByGroup (c : HistoryOutFieldCollection)
    (groupList : List String) :
    (List HistoryOutputField × List String) × HistoryOutFieldCollection :=
  (GetFieldsByGroup groupList c.insertionVector, c)

/-- State-passing form of the instance query
`COutFieldCollection::GetFieldsByType` (output_fields.hpp, lines 226-229, a
const member). -/
def RunGetFieldsByType (c : HistoryOutFieldCollection)
    (type : List FieldType) :
    List HistoryOutputField × HistoryOutFieldCollection :=
  (GetFieldsByType type c.insertionVector, c)

/-! Helper lemmas about the evaluation environment. -/

theorem getToken_setToken_self (env : TokenMap) (k : String) (v : su2double) :
    getToken (setToken env k v) k = some v := by
  induction env with
  | nil => simp [setToken, getToken]
  | cons p rest ih =>
      obtain ⟨k', v'⟩ := p
      by_cases hk : k' = k
      · simp [setToken, getToken, hk]
      · simp [setToken, getToken, hk, ih]

theorem getToken_setToken_ne (env : TokenMap) (k k' : String) (v : su2double)
    (h : k' ≠ k) : getToken (setToken env k v) k' = getToken env k' := by
  induction env with
  | nil =>
      have hne : k ≠ k' := fun hh => h hh.symm
      simp [setToken, getToken, hne]
  | cons p rest ih =>
      obtain ⟨k₀, v₀⟩ := p
      by_cases hk : k₀ = k
      · have hne : ¬ k = k' := fun hh => h hh.symm
        simp [setToken, getToken, hk, hne]
      · by_cases hk' : k₀ = k'
        · simp [setToken, getToken, hk, hk', h]
        · simp [setToken, getToken, hk, hk', ih]

/-! Helper lemmas about the publish loop. -/

theorem publishStep_custom (env : TokenMap) (f : HistoryOutputField)
    (h : f.fieldType = FieldType.CUSTOM) : publishStep env f = env := by
  simp [publishStep, h]

theorem publishStep_noncustom (env : TokenMap) (f : HistoryOutputField)
    (h : f.fieldType ≠ FieldType.CUSTOM) :
    publishStep env f = setToken env f.fieldName f.value := by
  simp [publishStep, h]

theorem getToken_foldl_publishStep_frame (fields : List HistoryOutputField)
    (env : TokenMap) (k : String)
    (h : ∀ f ∈ fields, f.fieldType = FieldType.CUSTOM ∨ f.fieldName ≠ k) :
    getToken (fields.foldl publishStep env) k = getToken env k := by
  induction fields generalizing env with
  | nil => rfl
  | cons f rest ih =>
      have hrest : ∀ g ∈ rest, g.fieldType = FieldType.CUSTOM ∨ g.fieldName ≠ k :=
        fun g hg => h g (List.mem_cons_of_mem f hg)
      by_cases hcust : f.fieldType = FieldType.CUSTOM
      · rw [List.foldl_cons, publishStep_custom env f hcust]
        exact ih env hrest
      · have hname : f.fieldName ≠ k := by
          rcases h f (List.mem_cons_self f rest) with hc | hn
          · exact absurd hc hcust
          · exact hn
        rw [List.foldl_cons, publishStep_noncustom env f hcust, ih _ hrest]
        exact getToken_setToken_ne env f.fieldName k f.value (Ne.symm hname)

theorem getToken_foldl_publishStep_value (fields : List HistoryOutputField)
    (env : TokenMap)
    (hnd : (fields.map fun f => f.fieldName).Nodup) :
    ∀ f ∈ fields, f.fieldType ≠ FieldType.CUSTOM →
      getToken (fields.foldl publishStep env) f.fieldName = some f.value := by
  induction fields generalizing env with
  | nil => intro f hf; cases hf
  | cons g rest ih =>
      intro f hf hfc
      rw [List.map_cons, List.nodup_cons] at hnd
      rcases List.mem_cons.mp hf with rfl | hfr
      · rw [List.foldl_cons, publishStep_noncustom env f hfc]
        have hframe : ∀ g' ∈ rest,
            g'.fieldType = FieldType.CUSTOM ∨ g'.fieldName ≠ f.fieldName := by
          intro g' hg'
          right
          intro he
          exact hnd.1 (he ▸ List.mem_map_of_mem (fun x => x.fieldName) hg')
        rw [getToken_foldl_publishStep_frame rest _ f.fieldName hframe]
        exact getToken_setToken_self env f.fieldName f.value
      · rw [List.foldl_cons]
        exact ih _ hnd.2 f hfr hfc

/-! Helper lemmas about the modelled query scan. -/

theorem getReferencesList_eq_flatMap {κ α : Type} (keyList : List κ)
    (pred : κ → α → Bool) (refVector : List α) :
    GetReferencesList keyList pred refVector =
      refVector.flatMap fun c => (keyList.filter fun k => pred k c).map fun _ => c := by
  induction refVector with
  | nil => rfl
  | cons c rest ih => simp [GetReferencesList, ih]

theorem filter_map_const_replicate {κ α : Type} (keyList : List κ)
    (p : κ → Bool) (c : α) :
    (keyList.filter p).map (fun _ => c) =
      List.replicate (keyList.countP p) c := by
  induction keyList with
  | nil => rfl
  | cons k rest ih =>
      by_cases h : p k <;>
        simp [List.filter_cons, List.countP_cons, h, ih, List.replicate_succ]

theorem getReferencesList_perm_keys {κ α : Type} {keyList keyList' : List κ}
    (h : keyList.Perm keyList') (pred : κ → α → Bool) (refVector : List α) :
    GetReferencesList keyList pred refVector =
      GetReferencesList keyList' pred refVector := by
  induction refVector with
  | nil => rfl
  | cons c rest ih =>
      simp only [GetReferencesList, ih]
      rw [filter_map_const_replicate, filter_map_const_replicate,
        h.countP_eq]

theorem mem_getReferencesList {κ α : Type} (keyList : List κ)
    (pred : κ → α → Bool) (refVector : List α) (a : α) :
    a ∈ GetReferencesList keyList pred refVector ↔
      a ∈ refVector ∧ ∃ k ∈ keyList, pred k a = true := by
  rw [getReferencesList_eq_flatMap]
  simp only [List.mem_flatMap, List.mem_map, List.mem_filter]
  constructor
  · rintro ⟨c, hc, k, ⟨hk, hp⟩, rfl⟩
    exact ⟨hc, k, hk, hp⟩
  · rintro ⟨ha, k, hk, hp⟩
    exact ⟨a, ha, k, ⟨hk, hp⟩, rfl⟩

theorem getFieldsByType_single (t : FieldType)
    (refVector : List HistoryOutputField) :
    GetFieldsByType [t] refVector =
      refVector.filter fun f => f.fieldType == t := by
  induction refVector with
  | nil => rfl
  | cons f rest ih =>
      by_cases h : f.fieldType = t <;>
        simp [GetFieldsByType, GetReferences, GetReferencesList,
          findFieldWithType, List.filter_cons, h] at ih ⊢ <;>
        exact ih

/-! Helper lemmas about the branches of the evaluation step. -/

theorem updateTokens_no_custom (c : HistoryOutFieldCollection)
    (h : ∀ f ∈ c.insertionVector, f.fieldType ≠ FieldType.CUSTOM) :
    UpdateTokens c = c := by
  have hnil : GetFieldsByType [FieldType.CUSTOM] c.insertionVector = [] := by
    rw [getFieldsByType_single]
    rw [List.filter_eq_nil_iff]
    intro f hf
    simpa using h f hf
  simp [UpdateTokens, hnil]

theorem updateTokens_with_custom (c : HistoryOutFieldCollection)
    (h : ∃ f ∈ c.insertionVector, f.fieldType = FieldType.CUSTOM) :
    UpdateTokens c =
      { insertionVector :=
          c.insertionVector.map fun f =>
            if f.fieldType = FieldType.CUSTOM then
              { f with value := f.expParser.prog (UpdateTokensScope c) }
            else f
        outFieldScope := UpdateTokensScope c } := by
  obtain ⟨g, hg, hgc⟩ := h
  have hmem : g ∈ GetFieldsByType [FieldType.CUSTOM] c.insertionVector := by
    rw [getFieldsByType_single]
    exact List.mem_filter.mpr ⟨hg, by simp [hgc]⟩
  have hne : (GetFieldsByType [FieldType.CUSTOM] c.insertionVector).isEmpty = false := by
    cases hl : GetFieldsByType [FieldType.CUSTOM] c.insertionVector with
    | nil => rw [hl] at hmem; cases hmem
    | cons x xs => rfl
  simp [UpdateTokens, hne]

/-! Concrete example data used by witnesses and counterexamples. -/

/-- A registered coefficient field named X with current value 2. -/
def egFieldX : HistoryOutputField :=
  { fieldName := "X"
    outputGroup := "Aero"
    description := "x coefficient"
    fieldType := FieldType.COEFFICIENT
    value := 2
    screenFormat := ScreenOutputFormat.FIXED
    expParser := { prog := fun _ => 0 } }

/-- A registered coefficient field named Y with current value 5. -/
def egFieldY : HistoryOutputField :=
  { fieldName := "Y"
    outputGroup := "Aero"
    description := "y coefficient"
    fieldType := FieldType.COEFFICIENT
    value := 5
    screenFormat := ScreenOutputFormat.FIXED
    expParser := { prog := fun _ => 0 } }

/-- A registered Custom field named C whose program reads the published X
value and adds one. -/
def egFieldC : HistoryOutputField :=
  { fieldName := "C"
    outputGroup := "Derived"
    description := "derived field"
    fieldType := FieldType.CUSTOM
    value := 0
    screenFormat := ScreenOutputFormat.FIXED
    expParser := { prog := fun env => (getToken env "X").getD 0 + 1 } }

/-- A collection with two coefficient fields, one Custom field, and a stale
scope entry left over from an earlier cycle. -/
def egColl : HistoryOutFieldCollection :=
  { insertionVector := [egFieldX, egFieldY, egFieldC]
    outFieldScope := [("stale", 42)] }

/-- A collection with no Custom field. -/
def egCollNC : HistoryOutFieldCollection :=
  { insertionVector := [egFieldX, egFieldY]
    outFieldScope := [("stale", 42)] }

/-- C1: in one call to `HistoryOutFieldCollection::UpdateTokens` on a
collection holding at least one Custom field, the publish phase first stores
the current value of every non-Custom field in the scope under that field's
name, and only then is each Custom field's expression executed — so each
Custom field's new value is its program applied to the fully published
scope, which maps every non-Custom field's name to its current value. -/
theorem C1_two_phase_evaluation (c : HistoryOutFieldCollection)
    (hnd : (c.insertionVector.map fun f => f.fieldName).Nodup)
    (hcust : ∃ f ∈ c.insertionVector, f.fieldType = FieldType.CUSTOM) :
    (∀ f ∈ c.insertionVector, f.fieldType ≠ FieldType.CUSTOM →
       getToken (UpdateTokensScope c) f.fieldName = some f.value) ∧
    (∀ (i : Nat) (f : HistoryOutputField),
       c.insertionVector[i]? = some f → f.fieldType = FieldType.CUSTOM →
       (UpdateTokens c).insertionVector[i]? =
         some { f with value := f.expParser.prog (UpdateTokensScope c) }) := by
  constructor
  · intro f hf hfc
    exact getToken_foldl_publishStep_value _ _ hnd f hf hfc
  · intro i f hif hfc
    rw [updateTokens_with_custom c hcust]
    simp only [List.getElem?_map, hif, Option.map_some]
    simp [hfc]

/-- Witness for C1 at the concrete collection with fields X, Y, C. -/
theorem C1_two_phase_evaluation_witness :
    ((egColl.insertionVector.map fun f => f.fieldName).Nodup ∧
      ∃ f ∈ egColl.insertionVector, f.fieldType = FieldType.CUSTOM) ∧
    ((∀ f ∈ egColl.insertionVector, f.fieldType ≠ FieldType.CUSTOM →
        getToken (UpdateTokensScope egColl) f.fieldName = some f.value) ∧
     (∀ (i : Nat) (f : HistoryOutputField),
        egColl.insertionVector[i]? = some f → f.fieldType = FieldType.CUSTOM →
        (UpdateTokens egColl).insertionVector[i]? =
          some { f with value := f.expParser.prog (UpdateTokensScope egColl) })) :=
  ⟨⟨by decide, by decide⟩, C1_two_phase_evaluation egColl (by decide) (by decide)⟩

/-- C2 counterexample: at the concrete collection, `UpdateTokens` executes an
expression (there is one Custom field), yet the stale scope entry written
before the call survives it, although no registered field is named stale —
the environment is not cleared and so does not afterwards contain exactly
the non-Custom entries. -/
theorem C2_env_not_cleared_cex :
    (GetFieldsByType [FieldType.CUSTOM] egColl.insertionVector).length = 1 ∧
    (∀ f ∈ egColl.insertionVector, f.fieldName ≠ "stale") ∧
    getToken (UpdateTokens egColl).outFieldScope "stale" = some 42 := by
  refine ⟨by decide, by decide, by decide⟩

/-- C2 (amended): a call to `UpdateTokens` that executes any expression
(at least one Custom field, unique field names) repopulates but does not
clear the shared environment — afterwards the entry for each non-Custom
field holds that field's current value, while any entry whose key is not
the name of some non-Custom field of the collection (stale entries from
earlier cycles, writes made through `GetScope` between cycles, entries
named after Custom fields) reads the same after the call as before it. -/
theorem C2_env_overwrite_only (c : HistoryOutFieldCollection)
    (hnd : (c.insertionVector.map fun f => f.fieldName).Nodup)
    (hcust : ∃ g ∈ c.insertionVector, g.fieldType = FieldType.CUSTOM) :
    (∀ f ∈ c.insertionVector, f.fieldType ≠ FieldType.CUSTOM →
       getToken (UpdateTokens c).outFieldScope f.fieldName = some f.value) ∧
    (∀ k : String,
       (∀ f ∈ c.insertionVector,
          f.fieldType = FieldType.CUSTOM ∨ f.fieldName ≠ k) →
       getToken (UpdateTokens c).outFieldScope k =
         getToken c.outFieldScope k) := by
  constructor
  · intro f hf hfc
    rw [updateTokens_with_custom c hcust]
    exact getToken_foldl_publishStep_value _ _ hnd f hf hfc
  · intro k hk
    rw [updateTokens_with_custom c hcust]
    exact getToken_foldl_publishStep_frame _ _ _ hk

/-- Witness for the amended C2 at the concrete collection, covering both the
repopulated non-Custom entries and the preserved stale entry. -/
theorem C2_env_overwrite_only_witness :
    ((egColl.insertionVector.map fun f => f.fieldName).Nodup ∧
      ∃ g ∈ egColl.insertionVector, g.fieldType = FieldType.CUSTOM) ∧
    ((∀ f ∈ egColl.insertionVector, f.fieldType ≠ FieldType.CUSTOM →
        getToken (UpdateTokens egColl).outFieldScope f.fieldName =
          some f.value) ∧
     (∀ k : String,
        (∀ f ∈ egColl.insertionVector,
           f.fieldType = FieldType.CUSTOM ∨ f.fieldName ≠ k) →
        getToken (UpdateTokens egColl).outFieldScope k =
          getToken egColl.outFieldScope k)) :=
  ⟨⟨by decide, by decide⟩, C2_env_overwrite_only egColl (by decide) (by decide)⟩

/-- C3: on a collection with zero Custom fields, `UpdateTokens` returns the
state unchanged — scope and every field untouched — and is therefore
idempotent. -/
theorem C3_noop_without_custom (c : HistoryOutFieldCollection)
    (h : ∀ f ∈ c.insertionVector, f.fieldType ≠ FieldType.CUSTOM) :
    UpdateTokens c = c ∧ UpdateTokens (UpdateTokens c) = UpdateTokens c := by
  have h1 := updateTokens_no_custom c h
  exact ⟨h1, by rw [h1, h1]⟩

/-- Witness for C3 at the Custom-free collection. -/
theorem C3_noop_without_custom_witness :
    (∀ f ∈ egCollNC.insertionVector, f.fieldType ≠ FieldType.CUSTOM) ∧
    UpdateTokens egCollNC = egCollNC :=
  ⟨by decide, (C3_noop_without_custom egCollNC (by decide)).1⟩

/-- C4: the publish phase of `UpdateTokens` never writes an entry keyed by a
Custom field's name — for a Custom field of a collection with unique field
names, the scope entry under that field's name after the publish phase is
whatever it was before the call (in particular absent if it was absent). -/
theorem C4_custom_not_published (c : HistoryOutFieldCollection)
    (hnd : (c.insertionVector.map fun f => f.fieldName).Nodup)
    (g : HistoryOutputField) (hg : g ∈ c.insertionVector)
    (hgc : g.fieldType = FieldType.CUSTOM) :
    getToken (UpdateTokensScope c) g.fieldName =
      getToken c.outFieldScope g.fieldName := by
  apply getToken_foldl_publishStep_frame
  intro f hf
  by_cases hn : f.fieldName = g.fieldName
  · left
    have hfg : f = g := List.inj_on_of_nodup_map hnd hf hg hn
    rw [hfg]
    exact hgc
  · right
    exact hn

/-- Witness for C4 at the concrete collection and its Custom field C. -/
theorem C4_custom_not_published_witness :
    ((egColl.insertionVector.map fun f => f.fieldName).Nodup ∧
      egFieldC ∈ egColl.insertionVector ∧
      egFieldC.fieldType = FieldType.CUSTOM) ∧
    getToken (UpdateTokensScope egColl) egFieldC.fieldName =
      getToken egColl.outFieldScope egFieldC.fieldName :=
  ⟨⟨by decide,
    List.mem_cons_of_mem _ (List.mem_cons_of_mem _ (List.mem_cons_self _ _)),
    rfl⟩,
   C4_custom_not_published egColl (by decide) egFieldC
     (List.mem_cons_of_mem _ (List.mem_cons_of_mem _ (List.mem_cons_self _ _)))
     rfl⟩

/-! Helper lemmas for the round-trip and mutation claims. -/

theorem flatMap_eq_self_of_singleton {α : Type} (l : List α) (g : α → List α)
    (h : ∀ a ∈ l, g a = [a]) : l.flatMap g = l := by
  induction l with
  | nil => rfl
  | cons a rest ih =>
      rw [List.flatMap_cons, h a (List.mem_cons_self a rest),
        ih fun b hb => h b (List.mem_cons_of_mem a hb)]
      rfl

theorem filter_beq_of_nodup (names : List String) (n : String)
    (hnd : names.Nodup) (hmem : n ∈ names) :
    names.filter (fun k => k == n) = [n] := by
  induction names with
  | nil => cases hmem
  | cons m rest ih =>
      rw [List.nodup_cons] at hnd
      rcases List.mem_cons.mp hmem with rfl | hr
      · have hrest : rest.filter (fun k => k == n) = [] := by
          rw [List.filter_eq_nil_iff]
          intro k hk
          simp only [beq_iff_eq]
          intro he
          exact hnd.1 (he ▸ hk)
        simp [List.filter_cons, hrest]
      · have hmn : ¬ (m == n) = true := by
          simp only [beq_iff_eq]
          intro he
          exact hnd.1 (he ▸ hr)
        simp [List.filter_cons, hmn, ih hnd.2 hr]

theorem setValueFirst_getElem (fields : List HistoryOutputField) (key : String)
    (v : su2double)
    (hnd : (fields.map fun f => f.fieldName).Nodup) :
    ∀ (j : Nat) (f : HistoryOutputField), fields[j]? = some f →
      (setValueFirst fields key v)[j]? =
        some (if f.fieldName = key then { f with value := v } else f) := by
  induction fields with
  | nil => intro j f hj; simp at hj
  | cons g rest ih =>
      intro j f hj
      rw [List.map_cons, List.nodup_cons] at hnd
      by_cases hg : g.fieldName = key
      · have hsv : setValueFirst (g :: rest) key v =
            { g with value := v } :: rest := by
          simp [setValueFirst, hg]
        rw [hsv]
        cases j with
        | zero =>
            rw [List.getElem?_cons_zero] at hj
            injection hj with hj
            subst hj
            rw [List.getElem?_cons_zero, if_pos hg]
        | succ n =>
            rw [List.getElem?_cons_succ] at hj ⊢
            have hfr : f ∈ rest := by
              have hg' : rest.get? n = some f := by
                rw [List.get?_eq_getElem?]
                exact hj
              exact List.get?_mem hg'
            have hf : f.fieldName ≠ key := by
              intro he
              apply hnd.1
              exact List.mem_map.mpr
                ⟨f, hfr, show f.fieldName = g.fieldName by rw [he, hg]⟩
            rw [if_neg hf]
            exact hj
      · have hsv : setValueFirst (g :: rest) key v =
            g :: setValueFirst rest key v := by
          simp [setValueFirst, hg]
        rw [hsv]
        cases j with
        | zero =>
            rw [List.getElem?_cons_zero] at hj
            injection hj with hj
            subst hj
            rw [List.getElem?_cons_zero, if_neg hg]
        | succ n =>
            rw [List.getElem?_cons_succ] at hj ⊢
            exact ih hnd.2 n f hj

theorem setValueByIndex_scope (c : HistoryOutFieldCollection) (i : Nat)
    (v : su2double) : (SetValueByIndex c i v).outFieldScope = c.outFieldScope := by
  unfold SetValueByIndex
  cases hx : c.insertionVector.get? i <;> simp [hx]

theorem setValueByIndex_getElem (c : HistoryOutFieldCollection) (i : Nat)
    (v : su2double) (hi : i < c.insertionVector.length) :
    ∀ (j : Nat) (f : HistoryOutputField), c.insertionVector[j]? = some f →
      (SetValueByIndex c i v).insertionVector[j]? =
        some (if j = i then { f with value := v } else f) := by
  intro j f hj
  have hfi : ∃ fi, c.insertionVector.get? i = some fi := by
    rw [List.get?_eq_getElem?, List.getElem?_eq_getElem hi]
    exact ⟨_, rfl⟩
  obtain ⟨fi, hfi⟩ := hfi
  unfold SetValueByIndex
  rw [hfi]
  by_cases hji : j = i
  · subst hji
    have hf : f = fi := by
      rw [List.get?_eq_getElem?, hj] at hfi
      injection hfi
    subst hf
    simp only
    rw [List.getElem?_set_self hi]
    simp
  · simp only
    rw [List.getElem?_set_ne (Ne.symm hji), hj, if_neg hji]

/-- C5: for a non-empty requested key list, the byKey query returns the
matching candidates grouped by candidate — the sequence is the candidate
sequence traversed in its own (insertion) order with each candidate emitted
once per requested key it matches — and the result is invariant under any
reordering of the requested key list. -/
theorem C5_insertion_order (fieldKey : List String) (hne : fieldKey ≠ [])
    (refVector : List HistoryOutputField) (searchGroup : Bool) :
    ((GetFieldsByKey fieldKey refVector searchGroup).1 =
      refVector.flatMap fun f =>
        (fieldKey.filter fun k => findFieldWithName searchGroup k f).map
          fun _ => f) ∧
    (∀ fieldKey' : List String, fieldKey.Perm fieldKey' →
      (GetFieldsByKey fieldKey' refVector searchGroup).1 =
        (GetFieldsByKey fieldKey refVector searchGroup).1) := by
  constructor
  · exact getReferencesList_eq_flatMap fieldKey
      (findFieldWithName searchGroup) refVector
  · intro fieldKey' h
    exact getReferencesList_perm_keys h.symm
      (findFieldWithName searchGroup) refVector

/-- Witness for C5 at the concrete collection with the keys Y, X. -/
theorem C5_insertion_order_witness :
    (["Y", "X"] : List String) ≠ [] ∧
    (((GetFieldsByKey ["Y", "X"] egColl.insertionVector false).1 =
        egColl.insertionVector.flatMap fun f =>
          ((["Y", "X"] : List String).filter
            fun k => findFieldWithName false k f).map fun _ => f) ∧
     (∀ fieldKey' : List String, (["Y", "X"] : List String).Perm fieldKey' →
        (GetFieldsByKey fieldKey' egColl.insertionVector false).1 =
          (GetFieldsByKey ["Y", "X"] egColl.insertionVector false).1)) :=
  ⟨by decide,
   C5_insertion_order ["Y", "X"] (by decide) egColl.insertionVector false⟩

/-- C6: a candidate appears in the byKey result exactly when some requested
key equals its name, or group search is enabled and some requested key
equals its group; consequently, with group search enabled, a requested key
equal to a field's group puts every field of that group in the result. -/
theorem C6_match_predicate :
    (∀ (fieldKey : List String) (refVector : List HistoryOutputField)
        (searchGroup : Bool) (f : HistoryOutputField),
      f ∈ (GetFieldsByKey fieldKey refVector searchGroup).1 ↔
        f ∈ refVector ∧ ∃ k ∈ fieldKey,
          k = f.fieldName ∨ (searchGroup = true ∧ k = f.outputGroup)) ∧
    (∀ (fieldKey : List String) (refVector : List HistoryOutputField)
        (g : String) (f : HistoryOutputField),
      g ∈ fieldKey → f ∈ refVector → f.outputGroup = g →
        f ∈ (GetFieldsByKey fieldKey refVector true).1) := by
  have hmain : ∀ (fieldKey : List String) (refVector : List HistoryOutputField)
      (searchGroup : Bool) (f : HistoryOutputField),
      f ∈ (GetFieldsByKey fieldKey refVector searchGroup).1 ↔
        f ∈ refVector ∧ ∃ k ∈ fieldKey,
          k = f.fieldName ∨ (searchGroup = true ∧ k = f.outputGroup) := by
    intro fieldKey refVector searchGroup f
    rw [show (GetFieldsByKey fieldKey refVector searchGroup).1 =
        GetReferencesList fieldKey (findFieldWithName searchGroup) refVector
      from rfl]
    rw [mem_getReferencesList]
    constructor
    · rintro ⟨hf, k, hk, hp⟩
      refine ⟨hf, k, hk, ?_⟩
      simpa [findFieldWithName, Bool.or_eq_true, Bool.and_eq_true,
        beq_iff_eq] using hp
    · rintro ⟨hf, k, hk, hp⟩
      refine ⟨hf, k, hk, ?_⟩
      simpa [findFieldWithName, Bool.or_eq_true, Bool.and_eq_true,
        beq_iff_eq] using hp
  refine ⟨hmain, ?_⟩
  intro fieldKey refVector g f hg hf hgrp
  exact (hmain fieldKey refVector true f).mpr
    ⟨hf, g, hg, Or.inr ⟨rfl, hgrp.symm⟩⟩

/-- Witness for C6: the group key Aero selects field Y of group Aero. -/
theorem C6_match_predicate_witness :
    egFieldY ∈ (GetFieldsByKey ["Aero"] egColl.insertionVector true).1 :=
  C6_match_predicate.2 ["Aero"] egColl.insertionVector "Aero" egFieldY
    (List.mem_cons_self _ _)
    (List.mem_cons_of_mem _ (List.mem_cons_self _ _))
    rfl

/-- C7: querying byKey with a list of each registered field's own name, in
any order of that list, returns the whole collection — each field exactly
once, in its original insertion position. -/
theorem C7_roundtrip (c : HistoryOutFieldCollection) (fieldKey : List String)
    (hnd : (c.insertionVector.map fun f => f.fieldName).Nodup)
    (hperm : fieldKey.Perm (c.insertionVector.map fun f => f.fieldName)) :
    (GetFieldsByKey fieldKey c.insertionVector false).1 = c.insertionVector := by
  have h1 : (GetFieldsByKey fieldKey c.insertionVector false).1 =
      GetReferencesList (c.insertionVector.map fun f => f.fieldName)
        (findFieldWithName false) c.insertionVector :=
    getReferencesList_perm_keys hperm (findFieldWithName false) c.insertionVector
  rw [h1, getReferencesList_eq_flatMap]
  apply flatMap_eq_self_of_singleton
  intro f hf
  have hpred : (fun k => findFieldWithName false k f) =
      fun k => k == f.fieldName := by
    funext k
    simp [findFieldWithName]
  rw [hpred, filter_beq_of_nodup _ _ hnd (List.mem_map_of_mem _ hf)]
  rfl

/-- Witness for C7 at the concrete collection with the reordered name list
C, X, Y. -/
theorem C7_roundtrip_witness :
    ((egColl.insertionVector.map fun f => f.fieldName).Nodup ∧
      (["C", "X", "Y"] : List String).Perm
        (egColl.insertionVector.map fun f => f.fieldName)) ∧
    (GetFieldsByKey ["C", "X", "Y"] egColl.insertionVector false).1 =
      egColl.insertionVector :=
  ⟨⟨by decide, by decide⟩,
   C7_roundtrip egColl ["C", "X", "Y"] (by decide) (by decide)⟩

/-- C8: for a registered name (unique field names) and an in-range position,
SetValueByKey overwrites exactly the named field's value and SetValueByIndex
overwrites exactly the value at that insertion position — every other
field, all metadata, and the evaluation scope are unchanged. -/
theorem C8_direct_mutation (c : HistoryOutFieldCollection) (key : String)
    (v : su2double) (i : Nat)
    (hnd : (c.insertionVector.map fun f => f.fieldName).Nodup)
    (hreg : key ∈ c.insertionVector.map fun f => f.fieldName)
    (hi : i < c.insertionVector.length) :
    (∀ (j : Nat) (f : HistoryOutputField), c.insertionVector[j]? = some f →
       (SetValueByKey c key v).insertionVector[j]? =
         some (if f.fieldName = key then { f with value := v } else f)) ∧
    (SetValueByKey c key v).outFieldScope = c.outFieldScope ∧
    (∀ (j : Nat) (f : HistoryOutputField), c.insertionVector[j]? = some f →
       (SetValueByIndex c i v).insertionVector[j]? =
         some (if j = i then { f with value := v } else f)) ∧
    (SetValueByIndex c i v).outFieldScope = c.outFieldScope :=
  ⟨setValueFirst_getElem c.insertionVector key v hnd, rfl,
   setValueByIndex_getElem c i v hi, setValueByIndex_scope c i v⟩

/-- Witness for C8 at the concrete collection, name Y, position 0. -/
theorem C8_direct_mutation_witness :
    ((egColl.insertionVector.map fun f => f.fieldName).Nodup ∧
      "Y" ∈ (egColl.insertionVector.map fun f => f.fieldName) ∧
      0 < egColl.insertionVector.length) ∧
    ((∀ (j : Nat) (f : HistoryOutputField),
        egColl.insertionVector[j]? = some f →
        (SetValueByKey egColl "Y" 9).insertionVector[j]? =
          some (if f.fieldName = "Y" then { f with value := 9 } else f)) ∧
     (SetValueByKey egColl "Y" 9).outFieldScope = egColl.outFieldScope ∧
     (∀ (j : Nat) (f : HistoryOutputField),
        egColl.insertionVector[j]? = some f →
        (SetValueByIndex egColl 0 9).insertionVector[j]? =
          some (if j = 0 then { f with value := 9 } else f)) ∧
     (SetValueByIndex egColl 0 9).outFieldScope = egColl.outFieldScope) :=
  ⟨⟨by decide, by decide, by decide⟩,
   C8_direct_mutation egColl "Y" 9 0 (by decide) (by decide) (by decide)⟩

/-- C9: the query operations are read-only — the state-passing forms of the
instance queries return the collection (fields, metadata, values, insertion
order, and evaluation scope) exactly as it was, their only outputs being the
reference sequence and the not-found list; the static forms are pure
functions of the supplied candidate sequence. -/
theorem C9_queries_side_effect_free :
    ∀ (c : HistoryOutFieldCollection) (fieldKey groupList : List String)
      (type : List FieldType) (searchGroup : Bool),
      (RunGetFieldsByKey c fieldKey searchGroup).2 = c ∧
      (RunGetFieldsByGroup c groupList).2 = c ∧
      (RunGetFieldsByType c type).2 = c :=
  fun _ _ _ _ _ => ⟨rfl, rfl, rfl⟩

/-- C10: the initializing constructor of `VolumeOutputField` hard-codes the
category tag Default — never Custom, Residual, or Coefficient — and the
bulk-value collection's `UpdateTokens` is an unconditional no-op. -/
theorem C10_volume_constructor_default :
    (∀ (fieldName_ : String) (offset_ : Int) (group_ description_ : String),
      (mkVolumeOutputField fieldName_ offset_ group_ description_).fieldType =
          FieldType.DEFAULT ∧
      (mkVolumeOutputField fieldName_ offset_ group_ description_).fieldType ≠
          FieldType.CUSTOM ∧
      (mkVolumeOutputField fieldName_ offset_ group_ description_).fieldType ≠
          FieldType.RESIDUAL ∧
      (mkVolumeOutputField fieldName_ offset_ group_ description_).fieldType ≠
          FieldType.COEFFICIENT) ∧
    (∀ c : VolumeOutFieldCollection, c.UpdateTokens = c) := by
  constructor
  · intro fieldName_ offset_ group_ description_
    refine ⟨rfl, ?_, ?_, ?_⟩ <;> simp [mkVolumeOutputField]
  · intro c
    rfl
